import Mathlib

/-!
backomp: fixture naming, path normalisation, default policy and header flags.

A shallow embedding of `cmd/backomp/har.go` and `cmd/backomp/config.go`.

* Go strings are Lean strings; the functions below look at single characters
  (`/`, `-`, `:`, `.`), all of them ASCII.
* The file system is a function answering `os.Stat`; a directory listing is a
  list of existing paths.
* `_fileName` is recursive in the source with no bound on its depth, so the
  embedding carries the number of nested calls that may still be made (`fuel`);
  results are stated for every large enough `fuel`.
-/

namespace Backomp

/-! ## Go standard library: `path/filepath` (Unix) and `fmt` -/

/-- Elements of a slash-separated path: the text between consecutive separators. -/
def splitSlash : List Char → List (List Char)
  | [] => [[]]
  | c :: cs =>
    if c = '/' then [] :: splitSlash cs
    else
      match splitSlash cs with
      | [] => [[c]]
      | e :: es => (c :: e) :: es

/-- One round of the loop of `filepath.Clean`, on one path element. The state is the
number of leading `..` elements written so far and the elements kept after them, last
first. Empty and `.` elements are dropped; `..` removes the last kept element, or is
kept itself when there is none and the path is not rooted. -/
def cleanStep (rooted : Bool) (st : Nat × List (List Char)) (e : List Char) :
    Nat × List (List Char) :=
  if e = [] ∨ e = ['.'] then st
  else if e = ['.', '.'] then
    match st.2 with
    | _ :: rest => (st.1, rest)
    | [] => if rooted then st else (st.1 + 1, [])
  else (st.1, e :: st.2)

/-- The elements written by `filepath.Clean`, in order. -/
def cleanElems (st : Nat × List (List Char)) : List (List Char) :=
  List.replicate st.1 ['.', '.'] ++ st.2.reverse

/-- The elements of a path written out with one separator between neighbours. -/
def joinSlash : List (List Char) → List Char
  | [] => []
  | [e] => e
  | e :: es => e ++ '/' :: joinSlash es

/-- Go `filepath.Clean` on Unix: the shortest path equivalent to `path` by purely
lexical processing. -/
def filepathClean (path : List Char) : List Char :=
  if path = [] then ['.']
  else
    let rooted := path.head? == some '/'
    let body := joinSlash (cleanElems ((splitSlash path).foldl (cleanStep rooted) (0, [])))
    if rooted then '/' :: body
    else if body = [] then ['.']
    else body

/-- Go `filepath.Join(dir, file)` on Unix: empty elements are ignored, the others are
joined by a separator and the result is cleaned. -/
def filepathJoin (dir file : String) : String :=
  if dir ≠ "" then ⟨filepathClean (dir.data ++ '/' :: file.data)⟩
  else if file ≠ "" then ⟨filepathClean file.data⟩
  else ""

/-- Go `fmt.Sprintf("%s%d.txt", suffix, i)` for a non-negative `i`. -/
def sprintfSuffix (suffix : String) (i : Nat) : String :=
  suffix ++ Nat.repr i ++ ".txt"

/-- Value of a decimal digit character. -/
def digitVal (c : Char) : Nat := c.toNat - 48

/-- Reading a decimal numeral, most significant digit first. -/
def readDecimal (acc : Nat) (cs : List Char) : Nat :=
  cs.foldl (fun a c => a * 10 + digitVal c) acc

/-! ## `har.go`: fixture file names -/

/-- The answer of `os.Stat` as `_fileName` reads it: the file is there (`err == nil`),
it is missing (`os.IsNotExist(err)`), or the call failed with another error. -/
inductive StatResult where
  | found
  | notExist
  | failed (err : String)
  deriving DecidableEq

/-- The candidate path that `_fileName` tries at index `i`
(`har.go`, lines 49-53). -/
def candidate (name dest suffix : String) (i : Nat) : String :=
  if i = 0 then filepathJoin dest (name ++ suffix ++ ".txt")
  else filepathJoin dest (name ++ sprintfSuffix suffix i)

/-- Embedding of `_fileName(name, dest, suffix, i)`: the pair `(string, error)` it
returns, with `none` for a nil error; the outer `none` means that `fuel` nested calls
were not enough. The index is a Go `int`; it grows by one for each existing file, far
below the range of 64 bits, and is a natural number here. -/
def _fileName (stat : String → StatResult) (fuel : Nat) (name dest suffix : String)
    (i : Nat) : Option (String × Option String) :=
  match fuel with
  | 0 => none
  | fuel + 1 =>
    let fname := candidate name dest suffix i
    match stat fname with
    | StatResult.notExist => some (fname, none)
    | StatResult.failed err => some ("", some err)
    | StatResult.found => _fileName stat fuel name dest suffix (i + 1)

/-- Embedding of `reqFileName(name, dest)`. -/
def reqFileName (stat : String → StatResult) (fuel : Nat) (name dest : String) :
    Option (String × Option String) :=
  _fileName stat fuel name dest "_req" 0

/-- Embedding of `respFileName(name, dest)`. -/
def respFileName (stat : String → StatResult) (fuel : Nat) (name dest : String) :
    Option (String × Option String) :=
  _fileName stat fuel name dest "_resp" 0

/-- The file system as a set of existing paths: `os.Stat` finds exactly the listed
paths and reports every other one missing. -/
def statDir (dir : List String) (p : String) : StatResult :=
  if p ∈ dir then StatResult.found else StatResult.notExist


/-- The directory after `os.Create(p)` has succeeded: the file is there, and the
other files are as before. -/
def createFile (dir : List String) (p : String) : List String :=
  if p ∈ dir then dir else p :: dir

/-- The answers of the file operations that `importReq` and `importResp` make on a
path: the error of `os.Create`, the error of writing the message into the file, and
the error of `Close` (`none` for nil). -/
structure fileOps where
  create : String → Option String
  write : String → Option String
  close : String → Option String

/-- File operations that all succeed. -/
def okOps : fileOps :=
  { create := fun _ => none, write := fun _ => none, close := fun _ => none }

/-- Embedding of `importReq(verbose, outDir, name, req)` on a directory listing: the
directory afterwards and the error returned (`none` for nil). A failing name search or
a failing `os.Create` returns the error and creates nothing; once the file is created,
the error of `req.Write` is returned, and when the write succeeds the deferred
`handleClose` puts the error of `Close` in its place. -/
def importReq (ops : fileOps) (fuel : Nat) (dir : List String) (outDir name : String) :
    Option (List String × Option String) :=
  match reqFileName (statDir dir) fuel name outDir with
  | none => none
  | some (_, some err) => some (dir, some err)
  | some (fname, none) =>
    match ops.create fname with
    | some err => some (dir, some err)
    | none =>
      match ops.write fname with
      | some err => some (createFile dir fname, some err)
      | none => some (createFile dir fname, ops.close fname)

/-- Embedding of `importResp(verbose, outDir, name, resp)` on a directory listing, with
the same error paths: the name search, `os.Create`, `resp.Write`, and `Close` through
the deferred `handleClose`. -/
def importResp (ops : fileOps) (fuel : Nat) (dir : List String) (outDir name : String) :
    Option (List String × Option String) :=
  match respFileName (statDir dir) fuel name outDir with
  | none => none
  | some (_, some err) => some (dir, some err)
  | some (fname, none) =>
    match ops.create fname with
    | some err => some (dir, some err)
    | none =>
      match ops.write fname with
      | some err => some (createFile dir fname, some err)
      | none => some (createFile dir fname, ops.close fname)

/-- The step "compute `reqFileName(name, dir)`, then create that file" (the file is
created by `importReq`) repeated `n` times: the paths returned by the rounds that
succeeded, in order, the directory at the end, and the error that stopped the rounds
(`none` when all `n` succeeded). -/
def saveRequests (ops : fileOps) (fuel : Nat) (name dest : String) :
    Nat → List String → Option (List String × List String × Option String)
  | 0, dir => some ([], dir, none)
  | n + 1, dir =>
    match reqFileName (statDir dir) fuel name dest, importReq ops fuel dir dest name with
    | some (fname, none), some (dir1, none) =>
      match saveRequests ops fuel name dest n dir1 with
      | some (paths, final, err) => some (fname :: paths, final, err)
      | none => none
    | some _, some (dir1, some err) => some ([], dir1, some err)
    | _, _ => none

/-! ## `har.go`: `normalize` -/

/-- Go `strings.NewReplacer(pairs...).Replace` when every old string is a single byte:
each character is looked up in the pairs, the first pair that has it wins, and a
character without a pair is copied. -/
def replaceChars (pairs : List (Char × List Char)) : List Char → List Char
  | [] => []
  | c :: cs =>
    match pairs.lookup c with
    | some new => new ++ replaceChars pairs cs
    | none => c :: replaceChars pairs cs

/-- Embedding of `normalize(s)`:
`strings.NewReplacer("/", "-", "-", "--").Replace(s)`. -/
def normalize (s : String) : String :=
  ⟨replaceChars [('/', ['-']), ('-', ['-', '-'])] s.data⟩

/-- The escaping in the words of the specification: `/` becomes `-`, `-` becomes
`--`, every other character stays. -/
def escapeChar (c : Char) : List Char :=
  if c = '/' then ['-'] else if c = '-' then ['-', '-'] else [c]

/-! ## `config.go`: the default policy -/

/-- Header part of a path rule (`headersConf`), as the literal of
`defaultPathsConfig` uses it. -/
structure headersConf where
  Ignore : List String
  IgnoreContent : List String
  deriving DecidableEq

/-- One rule of the policy (`pathConf`), as the literal of `defaultPathsConfig`
uses it. -/
structure pathConf where
  Path : String
  Headers : headersConf
  deriving DecidableEq

/-- Embedding of `defaultPathsConfig` (`config.go`, lines 27-42). -/
def defaultPathsConfig : List pathConf :=
  [ { Path := "**",
      Headers :=
        { Ignore := ["Connection"],
          IgnoreContent :=
            ["Age", "Content-MD5", "Content-Range", "Date",
             "Expires", "Last-Modified", "Public-Key-Pins",
             "Server", "Set-Cookie", "Etag", "Retry-After",
             "X-*", "Content-Length"] } } ]

/-- The presence-only header names as the specification lists them. -/
def specIgnoreContent : List String :=
  ["Age", "Content-MD5", "Content-Range", "Date", "Expires", "Last-Modified",
   "Public-Key-Pins", "Server", "Set-Cookie", "ETag", "Retry-After", "X-*",
   "Content-Length"]

/-- Lower-casing of the ASCII letters of a header name, for comparing names without
regard to case. -/
def lowerASCII (s : String) : String :=
  ⟨s.data.map (fun c => if 65 ≤ c.toNat ∧ c.toNat ≤ 90 then Char.ofNat (c.toNat + 32) else c)⟩

/-! ## `config.go`: `parseTestFlags` -/

/-- Embedding of `targetConf`. -/
structure targetConf where
  Host : String
  UseHTTPS : Bool
  deriving DecidableEq

/-- Embedding of `testConf`, without the version constraint (a value of the semver
library). -/
structure testConf where
  Dir : String
  Save : String
  Verbose : Bool
  Quiet : Bool
  PathsConfFile : String
  Base : targetConf
  Target : targetConf
  Paths : List pathConf
  deriving DecidableEq

/-- What `flags.Parse(args)` leaves in the flag variables of `parseTestFlags`. -/
structure testFlags where
  dir : String
  save : String
  v : Bool
  q : Bool
  conf : String
  baseHost : String
  baseUseHTTPS : Bool
  targetHost : String
  targetUseHTTPS : Bool
  deriving DecidableEq

/-- The flag values when no flag is given (`config.go`, lines 149-159). -/
def defaultTestFlags : testFlags :=
  { dir := "backomp-tests", save := "", v := false, q := false, conf := "backcomp.json",
    baseHost := "", baseUseHTTPS := false, targetHost := "localhost",
    targetUseHTTPS := false }

/-- A policy file as `json.NewDecoder(f).Decode(&c.Paths)` reads it: the rules of its
JSON array, each with every field spelled out, or the error of a malformed file. -/
inductive confFile where
  | rules (rs : List pathConf)
  | malformed (err : String)
  deriving DecidableEq

/-- Go `json.Decoder.Decode` into a slice of rules, after the documentation of
`encoding/json`: to unmarshal a JSON array into a slice, the slice length is reset to
zero and each element is appended. On a malformed file the slice is left as it was. -/
def jsonDecodePaths (f : confFile) (paths : List pathConf) : List pathConf × Option String :=
  match f with
  | confFile.rules rs => (rs, none)
  | confFile.malformed err => (paths, some err)

/-- Embedding of `parseTestFlags(args)` after flag parsing: `flags` are the parsed
flag values and `openFile` answers `os.Open` (`none` when the file cannot be
opened). Returns the configuration and the error (`none` for nil). -/
def parseTestFlags (flags : testFlags) (openFile : String → Option confFile) :
    testConf × Option String :=
  let c : testConf :=
    { Dir := flags.dir, Save := flags.save, Verbose := flags.v, Quiet := flags.q,
      PathsConfFile := flags.conf,
      Base := { Host := flags.baseHost, UseHTTPS := flags.baseUseHTTPS },
      Target := { Host := flags.targetHost, UseHTTPS := flags.targetUseHTTPS },
      Paths := defaultPathsConfig }
  if c.Verbose && c.Quiet then (c, some "conflicting -v and -q")
  else if c.PathsConfFile = "" then (c, none)
  else
    match openFile c.PathsConfFile with
    | none => (c, none)
    | some f =>
      let r := jsonDecodePaths f c.Paths
      ({ c with Paths := r.1 },
        r.2.map (fun e => "parsing configuration file " ++ c.PathsConfFile ++ ": " ++ e))

/-- A file system for examples: every name opens a policy file with the one rule
`/api/*`, ignore `Foo`, ignoreContent `Bar`. -/
def onePolicyFile : String → Option confFile :=
  fun _ => some (confFile.rules
    [{ Path := "/api/*", Headers := { Ignore := ["Foo"], IgnoreContent := ["Bar"] } }])

/-! ## `config.go`: the `-H` flag -/

/-- Embedding of the type `headers` (`map[string][]string`): the value list stored
under each key, `none` for a key that is not in the map. -/
abbrev headers := String → Option (List String)

/-- The map with no key. -/
def emptyHeaders : headers := fun _ => none

/-- Go `strings.SplitN(s, ":", 2)`: the whole string when it holds no colon, else the
text before the first colon and the text after it. -/
def splitN2 : List Char → List (List Char)
  | [] => [[]]
  | c :: cs =>
    if c = ':' then [[], cs]
    else
      match splitN2 cs with
      | [] => [[c]]
      | p :: ps => (c :: p) :: ps

/-- Go `http.Header.Add(key, value)`: the value is appended to the list stored under
the canonical form of the key. `canonical` stands for
`textproto.CanonicalMIMEHeaderKey`. -/
def headerAdd (canonical : String → String) (h : headers) (key value : String) : headers :=
  fun k => if k = canonical key then some ((h k).getD [] ++ [value]) else h k

/-- Embedding of `(h *headers).Set(s)`: the map afterwards and the error returned
(`none` for nil; the error carries the rejected text). -/
def headers.Set (canonical : String → String) (h : headers) (s : String) :
    headers × Option String :=
  match splitN2 s.data with
  | [k, v] => (headerAdd canonical h ⟨k⟩ ⟨v⟩, none)
  | _ => (h, some s)

/-- A small canonical form for examples: the first letter in upper case. -/
def capitalizeKey (s : String) : String := s.capitalize


/-! ## Lemmas -/

theorem digitVal_digitChar (d : Nat) (h : d < 10) : digitVal (Nat.digitChar d) = d := by
  interval_cases d <;> rfl

theorem digitChar_isDigit (d : Nat) (h : d < 10) : (Nat.digitChar d).isDigit = true := by
  interval_cases d <;> rfl

theorem readDecimal_toDigitsCore (fuel : Nat) :
    ∀ n ds, n < fuel →
      readDecimal 0 (Nat.toDigitsCore 10 fuel n ds) = readDecimal n ds := by
  induction fuel with
  | zero => intro n ds h; omega
  | succ fuel ih =>
    intro n ds h
    have hd : digitVal (Nat.digitChar (n % 10)) = n % 10 :=
      digitVal_digitChar _ (Nat.mod_lt _ (by decide))
    simp only [Nat.toDigitsCore]
    split
    · rename_i h0
      simp only [readDecimal, List.foldl_cons, hd]
      congr 1
      omega
    · rename_i h0
      rw [ih (n / 10) _ (by omega)]
      simp only [readDecimal, List.foldl_cons, hd]
      congr 1
      omega

theorem toDigitsCore_isDigit (fuel : Nat) :
    ∀ n ds, (∀ c ∈ ds, c.isDigit = true) →
      ∀ c ∈ Nat.toDigitsCore 10 fuel n ds, c.isDigit = true := by
  induction fuel with
  | zero => intro n ds h; simpa [Nat.toDigitsCore] using h
  | succ fuel ih =>
    intro n ds h
    have hd : (Nat.digitChar (n % 10)).isDigit = true :=
      digitChar_isDigit _ (Nat.mod_lt _ (by decide))
    have hds : ∀ c ∈ Nat.digitChar (n % 10) :: ds, c.isDigit = true := by
      intro c hc
      rcases List.mem_cons.mp hc with rfl | hc
      · exact hd
      · exact h c hc
    simp only [Nat.toDigitsCore]
    split
    · exact hds
    · exact ih _ _ hds

theorem toDigitsCore_ne_nil (fuel : Nat) :
    ∀ n ds, Nat.toDigitsCore 10 (fuel + 1) n ds ≠ [] := by
  induction fuel with
  | zero => intro n ds; simp [Nat.toDigitsCore]
  | succ fuel ih =>
    intro n ds
    rw [Nat.toDigitsCore]
    split
    · simp
    · exact ih _ _

theorem repr_injective {i j : Nat} (h : Nat.repr i = Nat.repr j) : i = j := by
  have h1 : Nat.toDigits 10 i = Nat.toDigits 10 j := by
    have := congrArg String.data h
    simpa [Nat.repr, List.asString] using this
  have h2 := congrArg (readDecimal 0) h1
  simp only [Nat.toDigits] at h2
  rw [readDecimal_toDigitsCore _ _ _ (Nat.lt_succ_self i),
    readDecimal_toDigitsCore _ _ _ (Nat.lt_succ_self j)] at h2
  simpa [readDecimal] using h2

theorem repr_isDigit (i : Nat) : ∀ c ∈ (Nat.repr i).data, c.isDigit = true := by
  simp only [Nat.repr, List.asString, Nat.toDigits]
  exact toDigitsCore_isDigit _ _ _ (by simp)

theorem repr_ne_nil (i : Nat) : (Nat.repr i).data ≠ [] := by
  simp only [Nat.repr, List.asString, Nat.toDigits]
  exact toDigitsCore_ne_nil _ _ _

theorem splitSlash_noSlash (t : List Char) (ht : '/' ∉ t) : splitSlash t = [t] := by
  induction t with
  | nil => rfl
  | cons c cs ih =>
    have hc : c ≠ '/' := fun h => ht (by simp [h])
    have hcs : '/' ∉ cs := fun h => ht (List.mem_cons_of_mem _ h)
    simp [splitSlash, hc, ih hcs]

theorem splitSlash_append (p : List Char) :
    ∃ init last, ∀ t, '/' ∉ t → splitSlash (p ++ t) = init ++ [last ++ t] := by
  induction p with
  | nil => exact ⟨[], [], fun t ht => by simpa using splitSlash_noSlash t ht⟩
  | cons c cs ih =>
    obtain ⟨init, last, h⟩ := ih
    by_cases hc : c = '/'
    · exact ⟨[] :: init, last, fun t ht => by simp [splitSlash, hc, h t ht]⟩
    · cases init with
      | nil => exact ⟨[], c :: last, fun t ht => by simp [splitSlash, hc, h t ht]⟩
      | cons e es => exact ⟨(c :: e) :: es, last, fun t ht => by simp [splitSlash, hc, h t ht]⟩

theorem joinSlash_append_singleton (es : List (List Char)) (x : List Char) :
    joinSlash (es ++ [x]) = es.flatMap (fun e => e ++ ['/']) ++ x := by
  induction es with
  | nil => rfl
  | cons e es ih =>
    cases es with
    | nil => simp [joinSlash]
    | cons e2 es2 =>
      have : joinSlash (e :: e2 :: es2 ++ [x]) = e ++ '/' :: joinSlash (e2 :: es2 ++ [x]) := rfl
      rw [this, ih]
      simp

theorem cleanStep_real (rooted : Bool) (st : Nat × List (List Char)) (e : List Char)
    (he : 3 ≤ e.length) : cleanStep rooted st e = (st.1, e :: st.2) := by
  have h1 : e ≠ [] := by intro h; simp [h] at he
  have h2 : e ≠ ['.'] := by intro h; simp [h] at he
  have h3 : e ≠ ['.', '.'] := by intro h; simp [h] at he
  simp [cleanStep, h1, h2, h3]

theorem nonempty_of_three {α : Type} (t : List α) (h : 3 ≤ t.length) : t ≠ [] := by
  intro h0
  simp [h0] at h

theorem filepathClean_append (p : List Char) :
    ∃ g, ∀ t, '/' ∉ t → 3 ≤ t.length → filepathClean (p ++ t) = g ++ t := by
  obtain ⟨init, last, hsplit⟩ := splitSlash_append p
  obtain ⟨rooted, hrooted⟩ : ∃ r : Bool, r = (p.head? == some '/') := ⟨_, rfl⟩
  obtain ⟨st, hst⟩ : ∃ s, s = init.foldl (cleanStep rooted) (0, []) := ⟨_, rfl⟩
  refine ⟨(if rooted then ['/'] else []) ++
    ((cleanElems st).flatMap (fun e => e ++ ['/']) ++ last), ?_⟩
  intro t ht hlen
  have htne : t ≠ [] := nonempty_of_three t hlen
  have hne : p ++ t ≠ [] := fun h => htne (List.append_eq_nil.mp h).2
  have hroot : ((p ++ t).head? == some '/') = rooted := by
    cases p with
    | nil =>
      cases t with
      | nil => exact absurd rfl htne
      | cons c cs =>
        have hc : c ≠ '/' := fun h => ht (by simp [h])
        simp [hrooted, hc]
    | cons c cs => simp [hrooted]
  have hreal : 3 ≤ (last ++ t).length := by
    rw [List.length_append]
    omega
  have hbody : joinSlash (cleanElems ((splitSlash (p ++ t)).foldl (cleanStep rooted) (0, []))) =
      (cleanElems st).flatMap (fun e => e ++ ['/']) ++ (last ++ t) := by
    rw [hsplit t ht, List.foldl_append, ← hst]
    simp only [List.foldl_cons, List.foldl_nil]
    rw [cleanStep_real _ _ _ hreal]
    have hpush : cleanElems (st.1, (last ++ t) :: st.2) = cleanElems st ++ [last ++ t] := by
      simp [cleanElems]
    rw [hpush, joinSlash_append_singleton]
  have hbne : (cleanElems st).flatMap (fun e => e ++ ['/']) ++ (last ++ t) ≠ [] :=
    fun h => htne (List.append_eq_nil.mp (List.append_eq_nil.mp h).2).2
  simp only [filepathClean, hne, if_false, hroot, hbody]
  cases rooted with
  | true => simp
  | false => simp only [hbne, if_false]; simp

theorem filepathJoin_append (dest name : String) :
    ∃ g, ∀ t : String, '/' ∉ t.data → 3 ≤ t.data.length →
      (filepathJoin dest (name ++ t)).data = g ++ t.data := by
  by_cases hd : dest = ""
  · obtain ⟨g, hg⟩ := filepathClean_append name.data
    refine ⟨g, fun t ht hlen => ?_⟩
    have hne : name ++ t ≠ "" := by
      intro h
      have h1 := congrArg String.data h
      rw [String.data_append] at h1
      exact nonempty_of_three _ hlen (List.append_eq_nil.mp h1).2
    simp [filepathJoin, hd, hne, hg t.data ht hlen]
  · obtain ⟨g, hg⟩ := filepathClean_append (dest.data ++ '/' :: name.data)
    refine ⟨g, fun t ht hlen => ?_⟩
    have := hg t.data ht hlen
    simp [filepathJoin, hd] at this ⊢
    exact this

/-! ### Candidate paths -/

/-- The part of a candidate file name that depends on the index. -/
theorem candidate_eq (name dest suffix : String) (i : Nat) :
    candidate name dest suffix i =
      filepathJoin dest ((name ++ suffix) ++ (if i = 0 then ".txt" else Nat.repr i ++ ".txt")) := by
  unfold candidate sprintfSuffix
  split
  · rfl
  · simp [String.append_assoc]

theorem indexTail_noSlash (i : Nat) :
    '/' ∉ (if i = 0 then ".txt" else Nat.repr i ++ ".txt" : String).data := by
  split
  · decide
  · intro h
    rw [String.data_append, List.mem_append] at h
    rcases h with h | h
    · exact absurd (repr_isDigit i _ h) (by decide)
    · revert h; decide

theorem indexTail_length (i : Nat) :
    3 ≤ (if i = 0 then ".txt" else Nat.repr i ++ ".txt" : String).data.length := by
  split
  · decide
  · rw [String.data_append, List.length_append]
    have : (".txt" : String).data.length = 4 := by decide
    omega

theorem indexTail_injective {i j : Nat}
    (h : (if i = 0 then ".txt" else Nat.repr i ++ ".txt" : String).data =
      (if j = 0 then ".txt" else Nat.repr j ++ ".txt" : String).data) : i = j := by
  have hlen := congrArg List.length h
  have h4 : (".txt" : String).data.length = 4 := by decide
  have hpos : ∀ k, 0 < (Nat.repr k).data.length := fun k =>
    List.length_pos.mpr (repr_ne_nil k)
  by_cases hi : i = 0 <;> by_cases hj : j = 0
  · omega
  · simp only [hi, hj, if_true, if_false, String.data_append, List.length_append, h4] at hlen
    have := hpos j
    omega
  · simp only [hi, hj, if_true, if_false, String.data_append, List.length_append, h4] at hlen
    have := hpos i
    omega
  · simp only [hi, hj, if_false, String.data_append] at h
    exact repr_injective (String.ext (List.append_cancel_right h))

/-- Distinct indices give distinct candidate paths. -/
theorem candidate_injective (name dest suffix : String) {i j : Nat}
    (h : candidate name dest suffix i = candidate name dest suffix j) : i = j := by
  obtain ⟨g, hg⟩ := filepathJoin_append dest (name ++ suffix)
  rw [candidate_eq, candidate_eq] at h
  have h1 := congrArg String.data h
  rw [hg _ (indexTail_noSlash i) (indexTail_length i),
    hg _ (indexTail_noSlash j) (indexTail_length j)] at h1
  exact indexTail_injective (List.append_cancel_left h1)

/-! ### The search of `_fileName` -/

/-- More fuel does not change a result. -/
theorem fileName_fuel_mono (stat : String → StatResult) (name dest suffix : String) :
    ∀ (fuel : Nat) (i : Nat) (r : String × Option String),
      _fileName stat fuel name dest suffix i = some r →
      _fileName stat (fuel + 1) name dest suffix i = some r := by
  intro fuel
  induction fuel with
  | zero => intro i r h; simp [_fileName] at h
  | succ fuel ih =>
    intro i r h
    rw [_fileName] at h ⊢
    cases hs : stat (candidate name dest suffix i) with
    | found =>
      simp only [hs] at h ⊢
      exact ih _ _ h
    | notExist => simpa only [hs] using h
    | failed err => simpa only [hs] using h

/-- The search walks over every index whose file is found. -/
theorem fileName_skip_found (stat : String → StatResult) (name dest suffix : String) :
    ∀ (k fuel i : Nat),
      (∀ j, i ≤ j → j < i + k → stat (candidate name dest suffix j) = StatResult.found) →
      _fileName stat (fuel + k) name dest suffix i =
        _fileName stat fuel name dest suffix (i + k) := by
  intro k
  induction k with
  | zero => intro fuel i _; rfl
  | succ k ih =>
    intro fuel i h
    have h0 : stat (candidate name dest suffix i) = StatResult.found :=
      h i (Nat.le_refl _) (by omega)
    have hstep : _fileName stat (fuel + (k + 1)) name dest suffix i =
        _fileName stat (fuel + k) name dest suffix (i + 1) := by
      rw [show fuel + (k + 1) = (fuel + k) + 1 by omega, _fileName]
      simp only [h0]
    rw [hstep, ih fuel (i + 1) (fun j h1 h2 => h j (by omega) (by omega))]
    congr 1
    omega

/-- When the files of all indices below `n` are found and the one of index `n` is
missing, the search from 0 returns candidate `n`. -/
theorem fileName_returns (stat : String → StatResult) (name dest suffix : String) (n : Nat)
    (hlow : ∀ j, j < n → stat (candidate name dest suffix j) = StatResult.found)
    (hn : stat (candidate name dest suffix n) = StatResult.notExist)
    (fuel : Nat) (hfuel : n < fuel) :
    _fileName stat fuel name dest suffix 0 = some (candidate name dest suffix n, none) := by
  obtain ⟨f, rfl⟩ : ∃ f, fuel = (f + 1) + n := ⟨fuel - n - 1, by omega⟩
  rw [fileName_skip_found stat name dest suffix n (f + 1) 0
    (fun j _ h2 => hlow j (by omega))]
  rw [Nat.zero_add, _fileName]
  simp only [hn]

/-- When the files of all indices below `n` are found and the stat of index `n` fails,
the search from 0 returns that error and the empty name. -/
theorem fileName_fails (stat : String → StatResult) (name dest suffix : String) (n : Nat)
    (err : String)
    (hlow : ∀ j, j < n → stat (candidate name dest suffix j) = StatResult.found)
    (hn : stat (candidate name dest suffix n) = StatResult.failed err)
    (fuel : Nat) (hfuel : n < fuel) :
    _fileName stat fuel name dest suffix 0 = some ("", some err) := by
  obtain ⟨f, rfl⟩ : ∃ f, fuel = (f + 1) + n := ⟨fuel - n - 1, by omega⟩
  rw [fileName_skip_found stat name dest suffix n (f + 1) 0
    (fun j _ h2 => hlow j (by omega))]
  rw [Nat.zero_add, _fileName]
  simp only [hn]

theorem statDir_found {dir : List String} {p : String} :
    statDir dir p = StatResult.found ↔ p ∈ dir := by
  unfold statDir
  split <;> simp [*]

theorem statDir_notExist {dir : List String} {p : String} :
    statDir dir p = StatResult.notExist ↔ p ∉ dir := by
  unfold statDir
  split <;> simp [*]

/-- Among the first `card + 1` candidates one is not in a directory of `card` files. -/
theorem exists_free_index (name dest suffix : String) (dir : List String) :
    ∃ n, n ≤ dir.toFinset.card ∧ candidate name dest suffix n ∉ dir := by
  by_contra hcon
  push_neg at hcon
  have hle : (Finset.range (dir.toFinset.card + 1)).card ≤ dir.toFinset.card := by
    apply Finset.card_le_card_of_injOn (candidate name dest suffix)
    · intro n hn
      have hn1 : n ≤ dir.toFinset.card := by
        have := Finset.mem_range.mp hn
        omega
      exact List.mem_toFinset.mpr (hcon n hn1)
    · intro a _ b _ hab
      exact candidate_injective name dest suffix hab
  rw [Finset.card_range] at hle
  omega

/-- The least index whose candidate file is missing, with its bound. -/
theorem exists_least_free_index (name dest suffix : String) (dir : List String) :
    ∃ n, n ≤ dir.toFinset.card ∧ candidate name dest suffix n ∉ dir ∧
      ∀ j, j < n → candidate name dest suffix j ∈ dir := by
  classical
  have hex : ∃ n, candidate name dest suffix n ∉ dir := by
    obtain ⟨n, _, hn⟩ := exists_free_index name dest suffix dir
    exact ⟨n, hn⟩
  obtain ⟨m, hm, hfree⟩ := exists_free_index name dest suffix dir
  refine ⟨Nat.find hex, ?_, Nat.find_spec hex, ?_⟩
  · exact le_trans (Nat.find_min' hex hfree) hm
  · intro j hj
    by_contra hnot
    exact Nat.find_min hex hj hnot

/-- The candidate path written out with the file name of each index. -/
theorem candidate_unfold (name dest suffix : String) (i : Nat) :
    candidate name dest suffix i =
      if i = 0 then filepathJoin dest (name ++ suffix ++ ".txt")
      else filepathJoin dest (name ++ suffix ++ Nat.repr i ++ ".txt") := by
  unfold candidate sprintfSuffix
  split
  · rfl
  · simp [String.append_assoc]

/-- On a directory listing no stat fails, so the search never returns an error. -/
theorem fileName_statDir_no_error (dir : List String) (name dest suffix : String) :
    ∀ (fuel i : Nat) (r : String × Option String),
      _fileName (statDir dir) fuel name dest suffix i = some r → r.2 = none := by
  intro fuel
  induction fuel with
  | zero => intro i r h; simp [_fileName] at h
  | succ fuel ih =>
    intro i r h
    rw [_fileName] at h
    by_cases hmem : candidate name dest suffix i ∈ dir
    · simp only [statDir, hmem, if_true] at h
      exact ih _ _ h
    · simp only [statDir, hmem, if_false, Option.some.injEq] at h
      rw [← h]

/-- The search on a directory listing returns the least missing index. -/
theorem fileName_statDir_returns (dir : List String) (name dest suffix : String) (n : Nat)
    (hlow : ∀ j, j < n → candidate name dest suffix j ∈ dir)
    (hn : candidate name dest suffix n ∉ dir) (fuel : Nat) (hfuel : n < fuel) :
    _fileName (statDir dir) fuel name dest suffix 0 =
      some (candidate name dest suffix n, none) :=
  fileName_returns (statDir dir) name dest suffix n
    (fun j hj => statDir_found.mpr (hlow j hj)) (statDir_notExist.mpr hn) fuel hfuel

theorem mem_createFile {dir : List String} {p q : String} :
    q ∈ createFile dir p ↔ q = p ∨ q ∈ dir := by
  unfold createFile
  split
  · constructor
    · exact Or.inr
    · rintro (rfl | h)
      · assumption
      · exact h
  · exact List.mem_cons

/-- When `os.Create` fails on the name found, `importReq` returns that error and the
directory is as before. -/
theorem importReq_create_error (ops : fileOps) (fuel : Nat) (dir : List String)
    (outDir name fname err : String)
    (hname : reqFileName (statDir dir) fuel name outDir = some (fname, none))
    (hcreate : ops.create fname = some err) :
    importReq ops fuel dir outDir name = some (dir, some err) := by
  rw [importReq, hname]
  simp only [hcreate]

/-- When `os.Create` fails on the name found, `importResp` returns that error and the
directory is as before. -/
theorem importResp_create_error (ops : fileOps) (fuel : Nat) (dir : List String)
    (outDir name fname err : String)
    (hname : respFileName (statDir dir) fuel name outDir = some (fname, none))
    (hcreate : ops.create fname = some err) :
    importResp ops fuel dir outDir name = some (dir, some err) := by
  rw [importResp, hname]
  simp only [hcreate]

/-- Saving `n` requests from a directory that holds exactly the request files of the
indices below `k`, when the file operations on the candidates `k`, ..., `k + n - 1`
succeed, returns these candidates in order. -/
theorem saveRequests_from (ops : fileOps) (name dest : String) :
    ∀ (n k fuel : Nat) (dir : List String),
      (∀ j, j < k → candidate name dest "_req" j ∈ dir) →
      (∀ j, k ≤ j → candidate name dest "_req" j ∉ dir) →
      (∀ j, k ≤ j → j < k + n →
        ops.create (candidate name dest "_req" j) = none ∧
        ops.write (candidate name dest "_req" j) = none ∧
        ops.close (candidate name dest "_req" j) = none) →
      k + n ≤ fuel →
      ∃ final, saveRequests ops fuel name dest n dir =
        some ((List.range' k n).map (candidate name dest "_req"), final, none) := by
  intro n
  induction n with
  | zero => intro k fuel dir _ _ _ _; exact ⟨dir, rfl⟩
  | succ n ih =>
    intro k fuel dir hlow hhigh hops hfuel
    have hret : reqFileName (statDir dir) fuel name dest =
        some (candidate name dest "_req" k, none) :=
      fileName_statDir_returns dir name dest "_req" k hlow (hhigh k (Nat.le_refl _)) fuel
        (by omega)
    obtain ⟨hc, hw, hcl⟩ := hops k (Nat.le_refl _) (by omega)
    obtain ⟨final, hfinal⟩ := ih (k + 1) fuel (createFile dir (candidate name dest "_req" k))
      (fun j hj => by
        rcases Nat.lt_succ_iff_lt_or_eq.mp hj with h | h
        · exact mem_createFile.mpr (Or.inr (hlow j h))
        · exact mem_createFile.mpr (Or.inl (by rw [h])))
      (fun j hj hmem => by
        rcases mem_createFile.mp hmem with h | h
        · have := candidate_injective name dest "_req" h
          omega
        · exact hhigh j (by omega) h)
      (fun j hj1 hj2 => hops j (by omega) (by omega))
      (by omega)
    have himp : importReq ops fuel dir dest name =
        some (createFile dir (candidate name dest "_req" k), none) := by
      rw [importReq, hret]
      simp only [hc, hw, hcl]
    refine ⟨final, ?_⟩
    rw [saveRequests, hret, himp]
    simp only [hfinal, List.range'_succ, List.map_cons]

theorem splitN2_noColon (s : List Char) (h : ':' ∉ s) : splitN2 s = [s] := by
  induction s with
  | nil => rfl
  | cons c cs ih =>
    have hc : c ≠ ':' := fun e => h (by simp [e])
    have hcs : ':' ∉ cs := fun e => h (List.mem_cons_of_mem _ e)
    simp [splitN2, hc, ih hcs]

theorem splitN2_first (k v : List Char) (h : ':' ∉ k) : splitN2 (k ++ ':' :: v) = [k, v] := by
  induction k with
  | nil => simp [splitN2]
  | cons c cs ih =>
    have hc : c ≠ ':' := fun e => h (by simp [e])
    have hcs : ':' ∉ cs := fun e => h (List.mem_cons_of_mem _ e)
    simp [splitN2, hc, ih hcs]

theorem exists_first_colon (s : List Char) (h : ':' ∈ s) :
    ∃ k v, s = k ++ ':' :: v ∧ ':' ∉ k := by
  induction s with
  | nil => simp at h
  | cons c cs ih =>
    by_cases hc : c = ':'
    · exact ⟨[], cs, by simp [hc], by simp⟩
    · have hcs : ':' ∈ cs := by
        rcases List.mem_cons.mp h with e | e
        · exact absurd e.symm hc
        · exact e
      obtain ⟨k, v, hkv, hk⟩ := ih hcs
      refine ⟨c :: k, v, by simp [hkv], ?_⟩
      intro hmem
      rcases List.mem_cons.mp hmem with e | e
      · exact hc e.symm
      · exact hk e

theorem replaceChars_normalize (cs : List Char) :
    replaceChars [('/', ['-']), ('-', ['-', '-'])] cs = cs.flatMap escapeChar := by
  induction cs with
  | nil => rfl
  | cons c cs ih =>
    by_cases h1 : c = '/'
    · subst h1
      simp [replaceChars, List.lookup, escapeChar, ih]
    · by_cases h2 : c = '-'
      · subst h2
        simp [replaceChars, List.lookup, escapeChar, ih]
      · have e1 : (c == '/') = false := by simpa using h1
        have e2 : (c == '-') = false := by simpa using h2
        simp [replaceChars, List.lookup, escapeChar, ih, e1, e2, h1, h2]

theorem escapeChar_noSlash (c : Char) : '/' ∉ escapeChar c := by
  unfold escapeChar
  split
  · decide
  · split
    · decide
    · rename_i h _
      simpa using fun e => h e.symm

/-! ## The claims -/

/-- C1: on a directory given as the set of its existing paths, `_fileName` from index 0
returns, with a nil error, the unsuffixed path `dest/name+suffix+".txt"` when `n = 0`
and `dest/name+suffix+n+".txt"` otherwise, where `n` is the smallest index whose file
does not exist: the returned path is not an existing file and the file of every
smaller index exists. -/
theorem fileName_lowest_unused (name dest suffix : String) (dir : List String) :
    ∃ (n : Nat) (p : String),
      (∀ fuel, n < fuel → _fileName (statDir dir) fuel name dest suffix 0 = some (p, none)) ∧
      p = (if n = 0 then filepathJoin dest (name ++ suffix ++ ".txt")
        else filepathJoin dest (name ++ suffix ++ Nat.repr n ++ ".txt")) ∧
      p ∉ dir ∧
      (∀ j, j < n →
        (if j = 0 then filepathJoin dest (name ++ suffix ++ ".txt")
          else filepathJoin dest (name ++ suffix ++ Nat.repr j ++ ".txt")) ∈ dir) ∧
      (filepathJoin dest (name ++ suffix ++ ".txt") ∉ dir → n = 0) ∧
      (filepathJoin dest (name ++ suffix ++ ".txt") ∈ dir → 1 ≤ n) := by
  obtain ⟨n, _, hfree, hlow⟩ := exists_least_free_index name dest suffix dir
  refine ⟨n, candidate name dest suffix n, ?_, candidate_unfold name dest suffix n, hfree,
    ?_, ?_, ?_⟩
  · intro fuel hfuel
    exact fileName_statDir_returns dir name dest suffix n hlow hfree fuel hfuel
  · intro j hj
    rw [← candidate_unfold]
    exact hlow j hj
  · intro h0
    by_contra hn
    have := hlow 0 (Nat.pos_of_ne_zero hn)
    rw [candidate_unfold] at this
    exact h0 this
  · intro h0
    by_contra hn
    have hz : n = 0 := by omega
    rw [hz, candidate_unfold] at hfree
    exact hfree h0

/-- C2: from a directory that holds no request file for the name, `N ≥ 1` rounds of
"compute `reqFileName`, create that file" whose file operations succeed (`os.Create`,
the write and `Close` return nil on these paths) return, in order, `name_req.txt`,
`name_req1.txt`, ..., `name_req(N-1).txt` under the directory, with no error, and these
paths are pairwise distinct. -/
theorem saveRequests_names (ops : fileOps) (N : Nat) (name dest : String)
    (dir : List String) (fuel : Nat)
    (hN : 1 ≤ N)
    (hfresh : ∀ i, (if i = 0 then filepathJoin dest (name ++ "_req" ++ ".txt")
      else filepathJoin dest (name ++ "_req" ++ Nat.repr i ++ ".txt")) ∉ dir)
    (hops : ∀ i, i < N → ∀ p,
      p = (if i = 0 then filepathJoin dest (name ++ "_req" ++ ".txt")
        else filepathJoin dest (name ++ "_req" ++ Nat.repr i ++ ".txt")) →
      ops.create p = none ∧ ops.write p = none ∧ ops.close p = none)
    (hfuel : N ≤ fuel) :
    ∃ (paths final : List String),
      saveRequests ops fuel name dest N dir = some (paths, final, none) ∧
      paths = (List.range N).map (fun i =>
        if i = 0 then filepathJoin dest (name ++ "_req" ++ ".txt")
        else filepathJoin dest (name ++ "_req" ++ Nat.repr i ++ ".txt")) ∧
      paths.length = N ∧
      paths.Nodup ∧
      paths.head? = some (filepathJoin dest (name ++ "_req" ++ ".txt")) := by
  obtain ⟨final, hfinal⟩ := saveRequests_from ops name dest N 0 fuel dir
    (fun j hj => absurd hj (Nat.not_lt_zero j))
    (fun j _ => by rw [candidate_unfold]; exact hfresh j)
    (fun j _ hj => hops j (by omega) _ (candidate_unfold name dest "_req" j))
    (by omega)
  have hfun : (candidate name dest "_req") = (fun i =>
      if i = 0 then filepathJoin dest (name ++ "_req" ++ ".txt")
      else filepathJoin dest (name ++ "_req" ++ Nat.repr i ++ ".txt")) :=
    funext (fun i => candidate_unfold name dest "_req" i)
  rw [← List.range_eq_range', hfun] at hfinal
  refine ⟨_, final, hfinal, rfl, by simp, ?_, ?_⟩
  · rw [← hfun]
    exact (List.nodup_range N).map (fun i j h => candidate_injective name dest "_req" h)
  · obtain ⟨m, rfl⟩ : ∃ m, N = m + 1 := ⟨N - 1, by omega⟩
    rw [List.range_succ_eq_map]
    simp

/-- Witness of C2: three saves of `a` into the empty directory `d`, all file
operations succeeding. -/
theorem saveRequests_names_witness :
    ∃ (paths final : List String),
      saveRequests okOps 3 "a" "d" 3 [] = some (paths, final, none) ∧
      paths = (List.range 3).map (fun i =>
        if i = 0 then filepathJoin "d" ("a" ++ "_req" ++ ".txt")
        else filepathJoin "d" ("a" ++ "_req" ++ Nat.repr i ++ ".txt")) ∧
      paths.length = 3 ∧
      paths.Nodup ∧
      paths.head? = some (filepathJoin "d" ("a" ++ "_req" ++ ".txt")) :=
  saveRequests_names okOps 3 "a" "d" [] 3 (by decide) (fun _ => List.not_mem_nil _)
    (fun _ _ _ _ => ⟨rfl, rfl, rfl⟩) (by decide)

/-- C3, the code at the failing input: the directory `d` holds the request file
`d/a_req.txt` of the name `a` and no response file. With every file operation
succeeding, `importReq` creates index 1 (`d/a_req1.txt`) and the following
`importResp` creates index 0 (`d/a_resp.txt`); no index names both files. -/
theorem req_resp_index_differ :
    reqFileName (statDir ["d/a_req.txt"]) 3 "a" "d" = some ("d/a_req1.txt", none) ∧
    importReq okOps 3 ["d/a_req.txt"] "d" "a" =
      some (["d/a_req1.txt", "d/a_req.txt"], none) ∧
    respFileName (statDir ["d/a_req1.txt", "d/a_req.txt"]) 3 "a" "d" =
      some ("d/a_resp.txt", none) ∧
    importResp okOps 3 ["d/a_req1.txt", "d/a_req.txt"] "d" "a" =
      some (["d/a_resp.txt", "d/a_req1.txt", "d/a_req.txt"], none) ∧
    ¬ ∃ n, candidate "a" "d" "_req" n = "d/a_req1.txt" ∧
      candidate "a" "d" "_resp" n = "d/a_resp.txt" := by
  refine ⟨by decide, by decide, by decide, by decide, ?_⟩
  rintro ⟨n, h1, h2⟩
  have e1 : candidate "a" "d" "_req" n = candidate "a" "d" "_req" 1 := by
    rw [h1]; decide
  have e2 : candidate "a" "d" "_resp" n = candidate "a" "d" "_resp" 0 := by
    rw [h2]; decide
  have := candidate_injective "a" "d" "_req" e1
  have := candidate_injective "a" "d" "_resp" e2
  omega

/-- C4, the code at the failing input: the two URL paths `/user//profile` and
`/user-profile` are different and `normalize` gives `-user--profile` for both. -/
theorem normalize_collision :
    normalize "/user//profile" = "-user--profile" ∧
    normalize "/user-profile" = "-user--profile" ∧
    ("/user//profile" : String) ≠ "/user-profile" := by
  decide

/-- C5: `normalize s` holds no `/`; it is `s` with every `/` replaced by `-`, every
`-` by `--`, and every other character copied, in order. -/
theorem normalize_escapes (s : String) :
    (normalize s).data = s.data.flatMap escapeChar ∧ '/' ∉ (normalize s).data := by
  have h : (normalize s).data = s.data.flatMap escapeChar := replaceChars_normalize s.data
  refine ⟨h, ?_⟩
  rw [h, List.mem_flatMap]
  rintro ⟨c, _, hc⟩
  exact escapeChar_noSlash c hc

/-- C6: `defaultPathsConfig` is one rule; its path is `**`, its ignore list is
`Connection` alone, and its ignoreContent list is, up to the case of the letters, the
thirteen names of the specification and nothing else. -/
theorem defaultPathsConfig_spec :
    defaultPathsConfig.length = 1 ∧
    defaultPathsConfig.map (fun r => r.Path) = ["**"] ∧
    defaultPathsConfig.map (fun r => r.Headers.Ignore) = [["Connection"]] ∧
    defaultPathsConfig.map (fun r => r.Headers.IgnoreContent.map lowerASCII) =
      [specIgnoreContent.map lowerASCII] ∧
    (∀ r ∈ defaultPathsConfig, ∀ h : String,
      lowerASCII h ∈ r.Headers.IgnoreContent.map lowerASCII ↔
        lowerASCII h ∈ specIgnoreContent.map lowerASCII) := by
  refine ⟨by decide, by decide, by decide, by decide, ?_⟩
  intro r hr h
  have hl : defaultPathsConfig.map (fun r => r.Headers.IgnoreContent.map lowerASCII) =
      [specIgnoreContent.map lowerASCII] := by decide
  have : r.Headers.IgnoreContent.map lowerASCII ∈
      defaultPathsConfig.map (fun r => r.Headers.IgnoreContent.map lowerASCII) :=
    List.mem_map_of_mem _ hr
  rw [hl, List.mem_singleton] at this
  rw [this]

/-- C7, counterexample: with the default flags and a policy file `backcomp.json` that
holds the one rule `/api/*` (ignore `Foo`, ignoreContent `Bar`), `parseTestFlags`
returns a nil error and a `Paths` list that is that rule alone: the built-in default
rule is not in it. -/
theorem parseTestFlags_drops_default :
    (parseTestFlags defaultTestFlags onePolicyFile).2
      = none ∧
    (parseTestFlags defaultTestFlags onePolicyFile).1.Paths
      = [{ Path := "/api/*", Headers := { Ignore := ["Foo"], IgnoreContent := ["Bar"] } }] ∧
    ¬ ∃ r ∈ defaultPathsConfig, r ∈ (parseTestFlags defaultTestFlags onePolicyFile).1.Paths := by
  decide

/-- C7, amended: when `parseTestFlags` loads a policy file (no conflict of `-v` and
`-q`, a non-empty `-conf` name, the file opens and decodes), it returns a nil error
and `Paths` is exactly the rules of the file; `Paths` is the built-in default policy
when the `-conf` name is empty or the file cannot be opened. -/
theorem parseTestFlags_paths (flags : testFlags) (openFile : String → Option confFile)
    (hvq : (flags.v && flags.q) = false) :
    (∀ rs, flags.conf ≠ "" → openFile flags.conf = some (confFile.rules rs) →
      (parseTestFlags flags openFile).2 = none ∧
      (parseTestFlags flags openFile).1.Paths = rs) ∧
    (flags.conf = "" ∨ openFile flags.conf = none →
      (parseTestFlags flags openFile).2 = none ∧
      (parseTestFlags flags openFile).1.Paths = defaultPathsConfig) := by
  constructor
  · intro rs hconf hopen
    simp [parseTestFlags, hvq, hconf, hopen, jsonDecodePaths]
  · intro h
    by_cases hconf : flags.conf = ""
    · simp [parseTestFlags, hvq, hconf]
    · rcases h with h | h
      · exact absurd h hconf
      · simp [parseTestFlags, hvq, hconf, h]

/-- Witness of C7 amended: the default flags and a file with one rule. -/
theorem parseTestFlags_paths_witness :
    (∀ rs, defaultTestFlags.conf ≠ "" →
      onePolicyFile defaultTestFlags.conf = some (confFile.rules rs) →
      (parseTestFlags defaultTestFlags onePolicyFile).2 = none ∧
      (parseTestFlags defaultTestFlags onePolicyFile).1.Paths = rs) ∧
    (defaultTestFlags.conf = "" ∨ onePolicyFile defaultTestFlags.conf = none →
      (parseTestFlags defaultTestFlags onePolicyFile).2 = none ∧
      (parseTestFlags defaultTestFlags onePolicyFile).1.Paths = defaultPathsConfig) :=
  parseTestFlags_paths defaultTestFlags onePolicyFile (by decide)

/-- C8, counterexample: no bound `B` makes `_fileName` return an error when the files
of the indices `0..B` exist. -/
theorem fileName_no_bound :
    ¬ ∃ B : Nat, ∀ (name dest suffix : String) (dir : List String),
      (∀ i, i ≤ B → candidate name dest suffix i ∈ dir) →
      ∃ fuel err, _fileName (statDir dir) fuel name dest suffix 0 = some ("", some err) := by
  rintro ⟨B, hB⟩
  obtain ⟨fuel, err, h⟩ := hB "a" "d" "_req"
    ((List.range (B + 1)).map (candidate "a" "d" "_req"))
    (fun i hi => List.mem_map_of_mem _ (List.mem_range.mpr (by omega)))
  have := fileName_statDir_no_error _ "a" "d" "_req" fuel 0 _ h
  simp at this

/-- C8, amended: the search has no bound. Whatever `B`, when the files of the indices
`0..B` exist in a directory listing, `_fileName` returns no error: it returns, with a
nil error, the path of the smallest index above `B` whose file does not exist. -/
theorem fileName_searches_on (B : Nat) (name dest suffix : String) (dir : List String)
    (hB : ∀ i, i ≤ B → candidate name dest suffix i ∈ dir) :
    ∃ n, B < n ∧ candidate name dest suffix n ∉ dir ∧
      (∀ j, j < n → candidate name dest suffix j ∈ dir) ∧
      ∀ fuel, n < fuel →
        _fileName (statDir dir) fuel name dest suffix 0 =
          some (candidate name dest suffix n, none) := by
  obtain ⟨n, _, hfree, hlow⟩ := exists_least_free_index name dest suffix dir
  refine ⟨n, ?_, hfree, hlow, fun fuel hfuel =>
    fileName_statDir_returns dir name dest suffix n hlow hfree fuel hfuel⟩
  by_contra hn
  exact hfree (hB n (by omega))

/-- Witness of C8 amended: the request files of the indices 0, 1 and 2 exist. -/
theorem fileName_searches_on_witness :
    ∃ n, 2 < n ∧ candidate "a" "d" "_req" n ∉ ["d/a_req.txt", "d/a_req1.txt", "d/a_req2.txt"] ∧
      (∀ j, j < n →
        candidate "a" "d" "_req" j ∈ ["d/a_req.txt", "d/a_req1.txt", "d/a_req2.txt"]) ∧
      ∀ fuel, n < fuel →
        _fileName (statDir ["d/a_req.txt", "d/a_req1.txt", "d/a_req2.txt"]) fuel "a" "d"
          "_req" 0 = some (candidate "a" "d" "_req" n, none) :=
  fileName_searches_on 2 "a" "d" "_req" ["d/a_req.txt", "d/a_req1.txt", "d/a_req2.txt"]
    (fun i hi => by interval_cases i <;> decide)

/-- C9: `headers.Set(s)` returns an error and leaves the map as it was exactly when `s`
holds no `:`; on `key:value` with no `:` in `key` it returns a nil error, the list
under the canonical form of `key` is the old list followed by `value` (kept as it is,
later colons included), and the entry of every other name is unchanged. -/
theorem headers_Set_spec (canonical : String → String) (h : headers) (s : String) :
    (((headers.Set canonical h s).2 ≠ none ∧ (headers.Set canonical h s).1 = h) ↔
      ':' ∉ s.data) ∧
    (':' ∈ s.data → (headers.Set canonical h s).2 = none) ∧
    (∀ k v : String, s = k ++ ":" ++ v → ':' ∉ k.data →
      (headers.Set canonical h s).2 = none ∧
      (headers.Set canonical h s).1 (canonical k) =
        some ((h (canonical k)).getD [] ++ [v]) ∧
      ∀ key, key ≠ canonical k → (headers.Set canonical h s).1 key = h key) := by
  have hsplit : ∀ k v : String, s = k ++ ":" ++ v → ':' ∉ k.data →
      headers.Set canonical h s = (headerAdd canonical h k v, none) := by
    intro k v hs hk
    have hd : s.data = k.data ++ ':' :: v.data := by
      rw [hs]
      simp [String.data_append]
    simp only [headers.Set, hd, splitN2_first _ _ hk]
  have hyes : ':' ∈ s.data → (headers.Set canonical h s).2 = none := by
    intro hmem
    obtain ⟨k, v, hkv, hk⟩ := exists_first_colon s.data hmem
    have hs : s = (⟨k⟩ : String) ++ ":" ++ ⟨v⟩ := by
      apply String.ext
      rw [hkv]
      simp [String.data_append]
    rw [hsplit ⟨k⟩ ⟨v⟩ hs hk]
  refine ⟨⟨?_, ?_⟩, hyes, ?_⟩
  · rintro ⟨herr, _⟩ hmem
    exact herr (hyes hmem)
  · intro hno
    simp [headers.Set, splitN2_noColon _ hno]
  · intro k v hs hk
    rw [hsplit k v hs hk]
    refine ⟨rfl, by simp [headerAdd], ?_⟩
    intro key hkey
    simp [headerAdd, hkey]

/-- Witness of C9: the flag value `accept: a:b` on the empty map. -/
theorem headers_Set_spec_witness :
    (headers.Set capitalizeKey emptyHeaders "accept: a:b").2 = none ∧
    (headers.Set capitalizeKey emptyHeaders "accept: a:b").1 (capitalizeKey "accept") =
      some ((emptyHeaders (capitalizeKey "accept")).getD [] ++ [" a:b"]) ∧
    ∀ key, key ≠ capitalizeKey "accept" →
      (headers.Set capitalizeKey emptyHeaders "accept: a:b").1 key = emptyHeaders key :=
  (headers_Set_spec capitalizeKey emptyHeaders "accept: a:b").2.2 "accept" " a:b"
    (by decide) (by decide)

/-- C10: when `os.Stat` finds exactly the files of a finite directory and never fails,
`_fileName` from index 0 returns, for every fuel above the number of files, a file
name with a nil error, and its index is at most the number of files; when the files
of all indices below `i` are found and the stat of index `i` fails with another
error, `_fileName` returns that error and the empty name. -/
theorem fileName_terminates (name dest suffix : String) :
    (∀ (stat : String → StatResult) (dir : List String),
      (∀ p, stat p = StatResult.found ↔ p ∈ dir) →
      (∀ p err, stat p ≠ StatResult.failed err) →
      ∃ n, n ≤ dir.toFinset.card ∧ ∀ fuel, dir.toFinset.card < fuel →
        _fileName stat fuel name dest suffix 0 = some (candidate name dest suffix n, none)) ∧
    (∀ (stat : String → StatResult) (i : Nat) (err : String),
      (∀ j, j < i → stat (candidate name dest suffix j) = StatResult.found) →
      stat (candidate name dest suffix i) = StatResult.failed err →
      ∀ fuel, i < fuel → _fileName stat fuel name dest suffix 0 = some ("", some err)) := by
  constructor
  · intro stat dir hfound hnofail
    obtain ⟨n, hcard, hfree, hlow⟩ := exists_least_free_index name dest suffix dir
    refine ⟨n, hcard, fun fuel hfuel => ?_⟩
    apply fileName_returns stat name dest suffix n
      (fun j hj => (hfound _).mpr (hlow j hj)) ?_ fuel (by omega)
    cases hs : stat (candidate name dest suffix n) with
    | found => exact absurd ((hfound _).mp hs) hfree
    | notExist => rfl
    | failed err => exact absurd hs (hnofail _ err)
  · intro stat i err hlow hfail fuel hfuel
    exact fileName_fails stat name dest suffix i err hlow hfail fuel hfuel

/-- Witness of C10: a directory with the request file of index 0, and a stat that
finds index 0 and is denied at index 1. -/
theorem fileName_terminates_witness :
    (∃ n, n ≤ (["d/a_req.txt"] : List String).toFinset.card ∧
      ∀ fuel, (["d/a_req.txt"] : List String).toFinset.card < fuel →
        _fileName (statDir ["d/a_req.txt"]) fuel "a" "d" "_req" 0 =
          some (candidate "a" "d" "_req" n, none)) ∧
    (∀ fuel, 1 < fuel →
      _fileName (fun p => if p = "d/a_req.txt" then StatResult.found
          else StatResult.failed "permission denied") fuel "a" "d" "_req" 0 =
        some ("", some "permission denied")) :=
  ⟨(fileName_terminates "a" "d" "_req").1 (statDir ["d/a_req.txt"]) ["d/a_req.txt"]
      (fun _ => statDir_found)
      (fun p err => by unfold statDir; split <;> simp),
    (fileName_terminates "a" "d" "_req").2
      (fun p => if p = "d/a_req.txt" then StatResult.found
        else StatResult.failed "permission denied") 1 "permission denied"
      (fun j hj => by interval_cases j; decide) (by decide)⟩

end Backomp
